import Mathlib

/-!
Shallow embedding of the brainfuck interpreter in `src/lib.rs`
(modules `token`, `bytecode`, `scanner`, `compiler`, `vm`, `interpret`).

Machine integers are modelled as `Nat` with explicit `% 256` where the Rust
code performs wrapping `u8` arithmetic or an `as u8` cast.  Rust code that can
panic (the `unwrap` calls in `Compiler::compile_bytecode`) is modelled with
`Option`, `none` standing for a panic.  The I/O trait object is modelled by an
input list and an output list carried inside the virtual-machine state, which
is exactly the behaviour of the `TestStdOut` capability used by the crate's
tests (`read` pops the front of the input queue and fails when it is empty;
`print` appends to the output buffer).
-/

namespace Brainfuck

/-- Model of `token::Token`. -/
inductive Token where
  | LessThan
  | GreaterThan
  | Plus
  | Minus
  | Dot
  | Comma
  | LeftSquareBracket
  | RightSquareBracket
  | Space
deriving DecidableEq, Repr

/-- Model of `bytecode::Bytecode`; the `jump_to` fields are `usize` indices. -/
inductive Bytecode where
  | IncrementPointer
  | DecrementPointer
  | IncrementValue
  | DecrementValue
  | OutputValue
  | InputValue
  | LoopStart (jump_to : Nat)
  | LoopEnd (jump_to : Nat)
deriving DecidableEq, Repr

/-- The filter predicate of `scanner::scan`: the eight instruction characters. -/
def isInstructionChar (c : Char) : Bool :=
  c = '>' || c = '<' || c = '+' || c = '-' || c = '.' || c = ',' || c = '[' || c = ']'

/-- The map arm of `scanner::scan`; the catch-all Rust arm is
`panic!("unexpected character")`, modelled as `none`. -/
def tokenOfChar (c : Char) : Option Token :=
  if c = '>' then some Token.GreaterThan
  else if c = '<' then some Token.LessThan
  else if c = '+' then some Token.Plus
  else if c = '-' then some Token.Minus
  else if c = '.' then some Token.Dot
  else if c = ',' then some Token.Comma
  else if c = '[' then some Token.LeftSquareBracket
  else if c = ']' then some Token.RightSquareBracket
  else none

/-- Model of `scanner::scan`: filter the instruction characters, then map each
one to its token (`none` models the unreachable panic arm). -/
def scan (input : List Char) : Option (List Token) :=
  (input.filter isInstructionChar).mapM tokenOfChar

/-- Total version of the character-to-token map, defined only for the
statement of the scanner claim (the default arm is never reached after the
filter). -/
def tokenOfCharTotal (c : Char) : Token :=
  if c = '>' then Token.GreaterThan
  else if c = '<' then Token.LessThan
  else if c = '+' then Token.Plus
  else if c = '-' then Token.Minus
  else if c = '.' then Token.Dot
  else if c = ',' then Token.Comma
  else if c = '[' then Token.LeftSquareBracket
  else if c = ']' then Token.RightSquareBracket
  else Token.Space

/-- Model of `compiler::Compiler`: the only field is the loop stack, which
persists across calls to `compile_bytecode`. -/
structure Compiler where
  loop_stack : List Nat
deriving DecidableEq, Repr

/-- The `for_each` body of `Compiler::compile_bytecode`, folded over the
filtered, enumerated tokens.  `i` is the enumeration index, `output` the
bytecode vector built so far, `stack` the compiler's loop stack (head = top).
`none` models the two possible panics: `self.loop_stack.pop().unwrap()` on an
empty stack, and `output.get_mut(loop_start).unwrap()` when the popped index
is out of bounds of the current output (possible only with a stale stack left
over from an earlier call).  The Rust arm for `Token::Space` is
`panic!("no space")`; it is unreachable because the input was filtered. -/
def compileAux : List Nat → List Bytecode → Nat → List Token →
    Option (List Nat × List Bytecode)
  | stack, output, _, [] => some (stack, output)
  | stack, output, i, t :: ts =>
    match t with
    | Token.GreaterThan =>
        compileAux stack (output ++ [Bytecode.IncrementPointer]) (i + 1) ts
    | Token.LessThan =>
        compileAux stack (output ++ [Bytecode.DecrementPointer]) (i + 1) ts
    | Token.Plus =>
        compileAux stack (output ++ [Bytecode.IncrementValue]) (i + 1) ts
    | Token.Minus =>
        compileAux stack (output ++ [Bytecode.DecrementValue]) (i + 1) ts
    | Token.Dot =>
        compileAux stack (output ++ [Bytecode.OutputValue]) (i + 1) ts
    | Token.Comma =>
        compileAux stack (output ++ [Bytecode.InputValue]) (i + 1) ts
    | Token.LeftSquareBracket =>
        compileAux (i :: stack) (output ++ [Bytecode.LoopStart 0]) (i + 1) ts
    | Token.RightSquareBracket =>
        match stack with
        | [] => none
        | loop_start :: rest =>
          if loop_start < output.length then
            compileAux rest
              ((output.set loop_start (Bytecode.LoopStart i)) ++
                [Bytecode.LoopEnd loop_start]) (i + 1) ts
          else none
    | Token.Space => none

/-- Model of `Compiler::compile_bytecode`: filter out `Space`, then run the
enumerated fold starting from the compiler's current (possibly stale) loop
stack and an empty output vector; return the updated compiler together with
the bytecode. -/
def Compiler.compile_bytecode (c : Compiler) (input : List Token) :
    Option (Compiler × List Bytecode) :=
  match compileAux c.loop_stack [] 0 (input.filter (fun t => t ≠ Token.Space)) with
  | none => none
  | some (stack, output) => some (⟨stack⟩, output)

/-- Model of `vm::VirtualMachine` together with its I/O capability: `memory`
is the tape of byte cells (values kept `< 256`), `mem_pointer` the data
pointer, `code_pointer` the instruction pointer; `input` and `output` model
the `StdInOut` capability as used by the crate's test harness. -/
structure VMState where
  memory : List Nat
  mem_pointer : Nat
  code_pointer : Nat
  input : List Char
  output : List Char
deriving DecidableEq, Repr

/-- The state built by `VirtualMachine::new`: 3000 zeroed cells, both
pointers at 0, with a given input queue and an empty output buffer. -/
def initState (input : List Char) : VMState :=
  ⟨List.replicate 3000 0, 0, 0, input, []⟩

/-- The byte at the data pointer, `self.memory[self.mem_pointer]`.  The VM
keeps `mem_pointer < memory.length` from every reachable state (proved
below), so the `getD` default is never consulted where the Rust indexing
would panic. -/
def readCell (s : VMState) : Nat :=
  s.memory.getD s.mem_pointer 0

/-- The `match bytecode` block in `VirtualMachine::run`, applied to one
fetched instruction.  `overflowing_add(1)`/`overflowing_sub(1)` on `u8`
become `(v + 1) % 256` and `(v + 255) % 256`; the `c as u8` cast in the
`InputValue` arm becomes `c.toNat % 256`; a failed `read` (empty input)
leaves the state unchanged. -/
def applyInstr (instr : Bytecode) (s : VMState) : VMState :=
  match instr with
  | Bytecode.IncrementPointer =>
      if s.mem_pointer = s.memory.length - 1 then { s with mem_pointer := 0 }
      else { s with mem_pointer := s.mem_pointer + 1 }
  | Bytecode.DecrementPointer =>
      if s.mem_pointer = 0 then { s with mem_pointer := s.memory.length - 1 }
      else { s with mem_pointer := s.mem_pointer - 1 }
  | Bytecode.IncrementValue =>
      { s with memory := s.memory.set s.mem_pointer ((readCell s + 1) % 256) }
  | Bytecode.DecrementValue =>
      { s with memory := s.memory.set s.mem_pointer ((readCell s + 255) % 256) }
  | Bytecode.OutputValue =>
      { s with output := s.output ++ [Char.ofNat (readCell s)] }
  | Bytecode.InputValue =>
      match s.input with
      | [] => s
      | c :: rest =>
          { s with memory := s.memory.set s.mem_pointer (c.toNat % 256),
                   input := rest }
  | Bytecode.LoopStart jump_to =>
      if readCell s = 0 then { s with code_pointer := jump_to } else s
  | Bytecode.LoopEnd jump_to =>
      if readCell s ≠ 0 then { s with code_pointer := jump_to } else s

/-- One iteration of the `loop` in `VirtualMachine::run`: fetch the bytecode
at `code_pointer` (`none` = fetch failure = break), apply its effect, then
increment `code_pointer` by one unconditionally. -/
def step (prog : List Bytecode) (s : VMState) : Option VMState :=
  match prog[s.code_pointer]? with
  | none => none
  | some instr =>
      let s' := applyInstr instr s
      some { s' with code_pointer := s'.code_pointer + 1 }

/-- Fuel-indexed unfolding of the `loop` in `VirtualMachine::run`: iterate
`step` until it halts or the fuel runs out.  (The Rust loop may diverge on
non-terminating brainfuck programs, so the embedding is fuel-indexed.) -/
def runFuel : Nat → List Bytecode → VMState → VMState
  | 0, _, s => s
  | fuel + 1, prog, s =>
      match step prog s with
      | none => s
      | some s' => runFuel fuel prog s'

/-- Model of one call of `Interpreter::interpret` on a fresh
`Interpreter::new`: scan the source, compile it with a fresh compiler, run
the bytecode from the initial VM state, and return the output buffer.
`fuel` bounds the number of VM loop iterations. -/
def interpret (source : List Char) (input : List Char) (fuel : Nat) :
    Option (List Char) :=
  match scan source with
  | none => none
  | some tokens =>
    match Compiler.compile_bytecode ⟨[]⟩ tokens with
    | none => none
    | some (_, bytecodes) => some (runFuel fuel bytecodes (initState input)).output

/-- Bracket-counting check used to state well-bracketedness of a token
sequence: `countOk d ts` holds when, reading `ts` with `d` currently open
brackets, no `]` ever arrives with zero open brackets and the count ends at
zero. -/
def countOk : Nat → List Token → Bool
  | d, [] => d == 0
  | d, Token.LeftSquareBracket :: ts => countOk (d + 1) ts
  | d, Token.RightSquareBracket :: ts =>
      match d with
      | 0 => false
      | d' + 1 => countOk d' ts
  | d, _ :: ts => countOk d ts

/-- A token sequence is well-bracketed when its brackets balance. -/
def wellBracketed (ts : List Token) : Bool :=
  countOk 0 ts

/-- Jump-pairing invariant of compiled bytecode, relativised to the loop
stack: every `LoopStart` at a position not on the stack points at a matching
`LoopEnd` that points back. -/
def Paired (stack : List Nat) (output : List Bytecode) : Prop :=
  ∀ q j, q ∉ stack → output[q]? = some (Bytecode.LoopStart j) →
    output[j]? = some (Bytecode.LoopEnd q)

/-! Helper lemmas about the run loop and the tape. -/

theorem runFuel_halt {prog : List Bytecode} {s : VMState} (h : step prog s = none) :
    ∀ f, runFuel f prog s = s := by
  intro f
  cases f with
  | zero => rfl
  | succ f => simp [runFuel, h]

theorem runFuel_add (prog : List Bytecode) :
    ∀ (a b : Nat) (s : VMState),
      runFuel (a + b) prog s = runFuel b prog (runFuel a prog s) := by
  intro a
  induction a with
  | zero =>
      intro b s
      rw [Nat.zero_add]
      rfl
  | succ a ih =>
      intro b s
      rw [Nat.succ_add]
      cases hs : step prog s with
      | none =>
          have h1 : runFuel (a + b + 1) prog s = s := runFuel_halt hs _
          have h2 : runFuel (a + 1) prog s = s := runFuel_halt hs _
          rw [h1, h2, runFuel_halt hs b]
      | some s2 =>
          have h1 : runFuel (a + b + 1) prog s = runFuel (a + b) prog s2 := by
            simp [runFuel, hs]
          have h2 : runFuel (a + 1) prog s = runFuel a prog s2 := by
            simp [runFuel, hs]
          rw [h1, h2, ih]

theorem runFuel_of_le (prog : List Bytecode) (s : VMState) {a b : Nat} (hab : a ≤ b)
    (h : step prog (runFuel a prog s) = none) :
    runFuel b prog s = runFuel a prog s := by
  obtain ⟨k, rfl⟩ := Nat.exists_eq_add_of_le hab
  rw [runFuel_add prog a k s, runFuel_halt h k]

theorem getElem_append_some {output : List Bytecode} (b : Bytecode) {p : Nat}
    {x : Bytecode} (h : output[p]? = some x) : (output ++ [b])[p]? = some x := by
  have hp : p < output.length := by
    obtain ⟨hp, -⟩ := List.getElem?_eq_some_iff.mp h
    exact hp
  rw [List.getElem?_append_left hp]
  exact h

theorem readCell_memSet (s : VMState) (v : Nat) (h : s.mem_pointer < s.memory.length) :
    readCell { s with memory := s.memory.set s.mem_pointer v } = v := by
  simp [readCell, List.getD_eq_getElem?_getD, List.getElem?_set_self h]

/-! Claim theorems. -/

/-- C2: the spec requires `compile([RightSquareBracket])` and
`compile([LeftSquareBracket])` to fail with `UnmatchedBracket`, and every
unmatched-bracket program to be rejected before execution.  The code only
panics on an unmatched right bracket (modelled as `none`); an unmatched left
bracket compiles without any error to `[LoopStart 0]` (with the index left on
the loop stack), and interpreting the program `[` runs the bytecode instead
of rejecting it. -/
theorem compile_unmatched_behavior :
    Compiler.compile_bytecode ⟨[]⟩ [Token.RightSquareBracket] = none ∧
    Compiler.compile_bytecode ⟨[]⟩ [Token.LeftSquareBracket]
      = some (⟨[0]⟩, [Bytecode.LoopStart 0]) ∧
    interpret (String.toList "[") [] 2 = some [] := by
  decide

/-- C9: `compile_bytecode` does not reset the compiler's `loop_stack`, so a
second call observes hidden state.  Compiling `s1 = [` leaves index 0 on the
stack; compiling `s2 = +]` afterwards succeeds (silently overwriting the
`IncrementValue` at index 0 with a patched `LoopStart`), while compiling `s2`
on a fresh compiler panics (modelled as `none`). -/
theorem compiler_stack_leak :
    Compiler.compile_bytecode ⟨[]⟩ [Token.LeftSquareBracket]
      = some (⟨[0]⟩, [Bytecode.LoopStart 0]) ∧
    Compiler.compile_bytecode ⟨[0]⟩ [Token.Plus, Token.RightSquareBracket]
      = some (⟨[]⟩, [Bytecode.LoopStart 1, Bytecode.LoopEnd 0]) ∧
    Compiler.compile_bytecode ⟨[]⟩ [Token.Plus, Token.RightSquareBracket] = none := by
  decide

/-- C8: end to end through `scan`, `compile_bytecode` and `run`, the program
`,.` with input `"H"` produces exactly the output `"H"` (for any fuel large
enough for the run loop to reach its halt condition). -/
theorem interpret_io_roundtrip (fuel : Nat) (h : 3 ≤ fuel) :
    interpret (String.toList ",.") (String.toList "H") fuel
      = some (String.toList "H") := by
  have hscan : scan (String.toList ",.") = some [Token.Comma, Token.Dot] := by decide
  have hcomp : Compiler.compile_bytecode ⟨[]⟩ [Token.Comma, Token.Dot]
      = some (⟨[]⟩, [Bytecode.InputValue, Bytecode.OutputValue]) := by decide
  have hstop : step [Bytecode.InputValue, Bytecode.OutputValue]
      (runFuel 3 [Bytecode.InputValue, Bytecode.OutputValue]
        (initState (String.toList "H"))) = none := by decide
  simp only [interpret, hscan, hcomp]
  rw [runFuel_of_le _ _ h hstop]
  decide

/-- Closed witness for C8 at the concrete fuel 3. -/
theorem interpret_io_roundtrip_witness :
    interpret (String.toList ",.") (String.toList "H") 3
      = some (String.toList "H") :=
  interpret_io_roundtrip 3 (by decide)

theorem step_eq_some {prog : List Bytecode} {s : VMState} {instr : Bytecode}
    (hget : prog[s.code_pointer]? = some instr) :
    step prog s
      = some { applyInstr instr s with
                code_pointer := (applyInstr instr s).code_pointer + 1 } := by
  simp only [step, hget]

theorem applyInstr_cp (instr : Bytecode) (s : VMState)
    (hns : ∀ j, instr ≠ Bytecode.LoopStart j) (hne : ∀ j, instr ≠ Bytecode.LoopEnd j) :
    (applyInstr instr s).code_pointer = s.code_pointer := by
  cases instr with
  | IncrementPointer => simp only [applyInstr]; split <;> rfl
  | DecrementPointer => simp only [applyInstr]; split <;> rfl
  | IncrementValue => rfl
  | DecrementValue => rfl
  | OutputValue => rfl
  | InputValue => simp only [applyInstr]; cases hin : s.input <;> simp [hin]
  | LoopStart j => exact absurd rfl (hns j)
  | LoopEnd j => exact absurd rfl (hne j)

/-- C3: one iteration of the run loop halts exactly when `code_pointer`
indexes past the end of the bytecode (fetch failure is the sole halting
condition); otherwise the fetched instruction's effect is applied and
`code_pointer` is then incremented by 1 unconditionally — after a non-jump
instruction the new `code_pointer` is the old one plus 1, and after a
`LoopStart`/`LoopEnd` it is the jump target (when the jump is taken) plus 1. -/
theorem run_loop_halt_and_increment (prog : List Bytecode) (s : VMState) :
    (step prog s = none ↔ prog.length ≤ s.code_pointer)
    ∧ (∀ instr, prog[s.code_pointer]? = some instr →
        (∀ j, instr ≠ Bytecode.LoopStart j) → (∀ j, instr ≠ Bytecode.LoopEnd j) →
        ∃ s', step prog s = some s' ∧ s'.code_pointer = s.code_pointer + 1)
    ∧ (∀ j, prog[s.code_pointer]? = some (Bytecode.LoopStart j) →
        ∃ s', step prog s = some s' ∧
          s'.code_pointer = (if readCell s = 0 then j else s.code_pointer) + 1)
    ∧ (∀ j, prog[s.code_pointer]? = some (Bytecode.LoopEnd j) →
        ∃ s', step prog s = some s' ∧
          s'.code_pointer = (if readCell s ≠ 0 then j else s.code_pointer) + 1) := by
  refine ⟨?_, ?_, ?_, ?_⟩
  · cases h : prog[s.code_pointer]? with
    | none =>
        simp only [step, h]
        simpa using List.getElem?_eq_none_iff.mp h
    | some instr =>
        simp only [step, h]
        obtain ⟨hlt, -⟩ := List.getElem?_eq_some_iff.mp h
        simp
        omega
  · intro instr hget hns hne
    refine ⟨_, step_eq_some hget, ?_⟩
    show (applyInstr instr s).code_pointer + 1 = s.code_pointer + 1
    rw [applyInstr_cp instr s hns hne]
  · intro j hget
    refine ⟨_, step_eq_some hget, ?_⟩
    show (applyInstr (Bytecode.LoopStart j) s).code_pointer + 1 = _
    by_cases hc : readCell s = 0 <;> simp [applyInstr, hc]
  · intro j hget
    refine ⟨_, step_eq_some hget, ?_⟩
    show (applyInstr (Bytecode.LoopEnd j) s).code_pointer + 1 = _
    by_cases hc : readCell s = 0 <;> simp [applyInstr, hc]

/-- Closed witness for C3: a taken backward jump of `LoopStart 7` lands at
`7 + 1`. -/
theorem run_loop_halt_and_increment_witness :
    ∃ s', step [Bytecode.LoopStart 7] (initState []) = some s' ∧
      s'.code_pointer = (if readCell (initState []) = 0 then 7 else 0) + 1 :=
  (run_loop_halt_and_increment [Bytecode.LoopStart 7] (initState [])).2.2.1 7 rfl

theorem applyInstr_mem (instr : Bytecode) (s : VMState)
    (h : s.mem_pointer < s.memory.length) :
    (applyInstr instr s).mem_pointer < (applyInstr instr s).memory.length ∧
    (applyInstr instr s).memory.length = s.memory.length := by
  cases instr with
  | IncrementPointer =>
      by_cases he : s.mem_pointer = s.memory.length - 1 <;>
        simp [applyInstr, he] <;> omega
  | DecrementPointer =>
      by_cases he : s.mem_pointer = 0 <;> simp [applyInstr, he] <;> omega
  | IncrementValue => simp [applyInstr, List.length_set]; omega
  | DecrementValue => simp [applyInstr, List.length_set]; omega
  | OutputValue => exact ⟨h, rfl⟩
  | InputValue =>
      cases hin : s.input with
      | nil => simp [applyInstr, hin]; omega
      | cons c rest => simp [applyInstr, hin, List.length_set]; omega
  | LoopStart j =>
      simp only [applyInstr]
      split <;> exact ⟨h, rfl⟩
  | LoopEnd j =>
      simp only [applyInstr]
      split <;> exact ⟨h, rfl⟩

theorem runFuel_repPtr (N : Nat) :
    ∀ (k : Nat) (s : VMState), s.memory.length = N → s.mem_pointer < N →
      s.code_pointer + k ≤ N →
      (runFuel k (List.replicate N Bytecode.IncrementPointer) s).mem_pointer
        = (s.mem_pointer + k) % N := by
  intro k
  induction k with
  | zero =>
      intro s h1 h2 h3
      rw [Nat.add_zero, Nat.mod_eq_of_lt h2]
      rfl
  | succ k ih =>
      intro s h1 h2 h3
      have hcp : s.code_pointer < N := by omega
      have hfetch : (List.replicate N Bytecode.IncrementPointer)[s.code_pointer]?
          = some Bytecode.IncrementPointer := List.getElem?_replicate_of_lt hcp
      have hN : 0 < N := by omega
      by_cases he : s.mem_pointer = s.memory.length - 1
      · have hstep : runFuel (k + 1) (List.replicate N Bytecode.IncrementPointer) s
            = runFuel k (List.replicate N Bytecode.IncrementPointer)
                (⟨s.memory, 0, s.code_pointer + 1, s.input, s.output⟩ : VMState) := by
          simp only [runFuel, step, hfetch, applyInstr, if_pos he]
        rw [hstep,
          ih (⟨s.memory, 0, s.code_pointer + 1, s.input, s.output⟩ : VMState) h1 hN
            (by show s.code_pointer + 1 + k ≤ N; omega)]
        show (0 + k) % N = (s.mem_pointer + (k + 1)) % N
        have h5 : s.mem_pointer + (k + 1) = k + N := by omega
        rw [h5, Nat.zero_add, Nat.add_mod_right]
      · have hstep : runFuel (k + 1) (List.replicate N Bytecode.IncrementPointer) s
            = runFuel k (List.replicate N Bytecode.IncrementPointer)
                (⟨s.memory, s.mem_pointer + 1, s.code_pointer + 1, s.input,
                  s.output⟩ : VMState) := by
          simp only [runFuel, step, hfetch, applyInstr, if_neg he]
        have hm : s.mem_pointer + 1 < N := by omega
        rw [hstep,
          ih (⟨s.memory, s.mem_pointer + 1, s.code_pointer + 1, s.input,
                s.output⟩ : VMState) h1 hm
            (by show s.code_pointer + 1 + k ≤ N; omega)]
        show (s.mem_pointer + 1 + k) % N = (s.mem_pointer + (k + 1)) % N
        congr 1
        omega

/-- C4: the data pointer always stays inside the tape: every step from a
state with `mem_pointer < memory.length` preserves that bound and the tape
length; the `IncrementPointer` arm realises `(p + 1) % tape_length` and the
`DecrementPointer` arm maps 0 to `tape_length - 1` and otherwise subtracts 1;
consequently on an N-cell tape N consecutive `>` from pointer 0 return the
pointer to 0, and one `<` from pointer 0 moves it to N - 1. -/
theorem data_pointer_wraparound :
    (∀ (prog : List Bytecode) (s s' : VMState), s.mem_pointer < s.memory.length →
        step prog s = some s' →
        s'.mem_pointer < s'.memory.length ∧ s'.memory.length = s.memory.length)
    ∧ (∀ s : VMState, s.mem_pointer < s.memory.length →
        (applyInstr Bytecode.IncrementPointer s).mem_pointer
          = (s.mem_pointer + 1) % s.memory.length)
    ∧ (∀ s : VMState, (applyInstr Bytecode.DecrementPointer s).mem_pointer
          = if s.mem_pointer = 0 then s.memory.length - 1 else s.mem_pointer - 1)
    ∧ (∀ (N : Nat) (s : VMState), s.memory.length = N → s.mem_pointer = 0 →
        s.code_pointer = 0 → 0 < N →
        (runFuel N (List.replicate N Bytecode.IncrementPointer) s).mem_pointer = 0)
    ∧ (∀ s : VMState, s.mem_pointer = 0 → s.code_pointer = 0 →
        (runFuel 1 [Bytecode.DecrementPointer] s).mem_pointer
          = s.memory.length - 1) := by
  refine ⟨?_, ?_, ?_, ?_, ?_⟩
  · intro prog s s' hmp hstep
    unfold step at hstep
    cases h : prog[s.code_pointer]? with
    | none => rw [h] at hstep; exact absurd hstep (by simp)
    | some instr =>
        rw [h] at hstep
        obtain ⟨h1, h2⟩ := applyInstr_mem instr s hmp
        have hs' := Option.some.inj hstep
        subst hs'
        exact ⟨by simpa using h1, by simpa using h2⟩
  · intro s hmp
    have hl : 0 < s.memory.length := by omega
    by_cases he : s.mem_pointer = s.memory.length - 1
    · simp only [applyInstr, if_pos he]
      show 0 = (s.mem_pointer + 1) % s.memory.length
      have h4 : s.mem_pointer + 1 = s.memory.length := by omega
      rw [h4, Nat.mod_self]
    · have h4 : s.mem_pointer + 1 < s.memory.length := by omega
      simp [applyInstr, he, Nat.mod_eq_of_lt h4]
  · intro s
    by_cases h0 : s.mem_pointer = 0 <;> simp [applyInstr, h0]
  · intro N s h1 h2 h3 hN
    rw [runFuel_repPtr N N s h1 (by omega) (by omega), h2, Nat.zero_add,
      Nat.mod_self]
  · intro s h0 hcp
    have hfetch : ([Bytecode.DecrementPointer] : List Bytecode)[s.code_pointer]?
        = some Bytecode.DecrementPointer := by rw [hcp]; rfl
    simp only [runFuel, step, hfetch, applyInstr, if_pos h0]

/-- Closed witness for C4: a step bound application on the initial state,
the `IncrementPointer` arm at the initial state, and 3 consecutive `>` on a
3-cell tape returning the pointer to 0. -/
theorem data_pointer_wraparound_witness :
    ((applyInstr Bytecode.IncrementPointer
        (⟨List.replicate 3 0, 0, 0, [], []⟩ : VMState)).mem_pointer
        = (0 + 1) % (List.replicate 3 (0 : Nat)).length) ∧
    (runFuel 3 (List.replicate 3 Bytecode.IncrementPointer)
        (⟨List.replicate 3 0, 0, 0, [], []⟩ : VMState)).mem_pointer = 0 :=
  ⟨data_pointer_wraparound.2.1 ⟨List.replicate 3 0, 0, 0, [], []⟩ (by decide),
   data_pointer_wraparound.2.2.2.1 3 ⟨List.replicate 3 0, 0, 0, [], []⟩ rfl rfl rfl
     (by decide)⟩

theorem getD_set_self (l : List Nat) (i v : Nat) (h : i < l.length) :
    (l.set i v).getD i 0 = v := by
  rw [List.getD_eq_getElem?_getD, List.getElem?_set_self h]
  rfl

theorem runFuel_repVal (n : Nat) :
    ∀ (k : Nat) (s : VMState), s.mem_pointer < s.memory.length → readCell s < 256 →
      s.code_pointer + k ≤ n →
      readCell (runFuel k (List.replicate n Bytecode.IncrementValue) s)
        = (readCell s + k) % 256 := by
  intro k
  induction k with
  | zero =>
      intro s h1 h2 h3
      rw [Nat.add_zero, Nat.mod_eq_of_lt h2]
      rfl
  | succ k ih =>
      intro s h1 h2 h3
      have hcp : s.code_pointer < n := by omega
      have hfetch : (List.replicate n Bytecode.IncrementValue)[s.code_pointer]?
          = some Bytecode.IncrementValue := List.getElem?_replicate_of_lt hcp
      have hstep : runFuel (k + 1) (List.replicate n Bytecode.IncrementValue) s
          = runFuel k (List.replicate n Bytecode.IncrementValue)
              (⟨s.memory.set s.mem_pointer ((readCell s + 1) % 256), s.mem_pointer,
                s.code_pointer + 1, s.input, s.output⟩ : VMState) := by
        simp only [runFuel, step, hfetch, applyInstr]
      have hmpt : s.mem_pointer < (s.memory.set s.mem_pointer ((readCell s + 1) % 256)).length := by
        rw [List.length_set]
        exact h1
      have hrt : readCell (⟨s.memory.set s.mem_pointer ((readCell s + 1) % 256),
          s.mem_pointer, s.code_pointer + 1, s.input, s.output⟩ : VMState)
          = (readCell s + 1) % 256 :=
        getD_set_self s.memory s.mem_pointer _ h1
      rw [hstep,
        ih (⟨s.memory.set s.mem_pointer ((readCell s + 1) % 256), s.mem_pointer,
              s.code_pointer + 1, s.input, s.output⟩ : VMState) hmpt
          (by rw [hrt]; exact Nat.mod_lt _ (by omega))
          (by show s.code_pointer + 1 + k ≤ n; omega), hrt]
      show ((readCell s + 1) % 256 + k) % 256 = (readCell s + (k + 1)) % 256
      rw [Nat.mod_add_mod]
      congr 1
      omega

/-- C5: `IncrementValue`/`DecrementValue` update the current cell modulo 256
with no signed interpretation: the arms compute `(v + 1) % 256` and
`(v + 255) % 256`, running `+` 256 times on a fresh (zero) cell returns it to
0, and running `-` once on a fresh cell yields 255. -/
theorem cell_arithmetic_mod256 :
    (∀ s : VMState, s.mem_pointer < s.memory.length →
        readCell (applyInstr Bytecode.IncrementValue s) = (readCell s + 1) % 256 ∧
        readCell (applyInstr Bytecode.DecrementValue s) = (readCell s + 255) % 256)
    ∧ readCell (runFuel 256 (List.replicate 256 Bytecode.IncrementValue)
        (initState [])) = 0
    ∧ readCell (runFuel 1 [Bytecode.DecrementValue] (initState [])) = 255 := by
  refine ⟨?_, ?_, ?_⟩
  · intro s h
    exact ⟨readCell_memSet s _ h, readCell_memSet s _ h⟩
  · have hm : (initState []).mem_pointer < (initState []).memory.length := by
      show 0 < (List.replicate 3000 (0 : Nat)).length
      rw [List.length_replicate]
      omega
    have hr0 : readCell (initState []) = 0 := by
      show (List.replicate 3000 (0 : Nat)).getD 0 0 = 0
      rw [List.getD_eq_getElem?_getD, List.getElem?_replicate_of_lt (by omega)]
      rfl
    have hr : readCell (initState []) < 256 := by rw [hr0]; omega
    rw [runFuel_repVal 256 256 (initState []) hm hr (by show 0 + 256 ≤ 256; omega),
      hr0]
  · decide

/-- Closed witness for C5: the increment and decrement arms evaluated on a
concrete one-cell state holding 7. -/
theorem cell_arithmetic_mod256_witness :
    readCell (applyInstr Bytecode.IncrementValue (⟨[7], 0, 0, [], []⟩ : VMState))
      = (readCell (⟨[7], 0, 0, [], []⟩ : VMState) + 1) % 256 ∧
    readCell (applyInstr Bytecode.DecrementValue (⟨[7], 0, 0, [], []⟩ : VMState))
      = (readCell (⟨[7], 0, 0, [], []⟩ : VMState) + 255) % 256 :=
  cell_arithmetic_mod256.1 ⟨[7], 0, 0, [], []⟩ (by decide)

/-- C6: when `InputValue` executes and the input capability fails (end of
input), the whole VM state except the incremented `code_pointer` is left
unchanged — in particular the current cell — and execution continues; and the
program `,,.` with the single-byte input `"A"` completes without error with
output `"A"`, the value retained from the first read. -/
theorem input_failure_nonfatal :
    (∀ (prog : List Bytecode) (s : VMState), s.input = [] →
        prog[s.code_pointer]? = some Bytecode.InputValue →
        step prog s = some { s with code_pointer := s.code_pointer + 1 }) ∧
    (∀ fuel, 3 ≤ fuel →
        interpret (String.toList ",,.") (String.toList "A") fuel
          = some (String.toList "A")) := by
  constructor
  · intro prog s hin hget
    rw [step_eq_some hget]
    have happ : applyInstr Bytecode.InputValue s = s := by
      simp only [applyInstr, hin]
    rw [happ]
  · intro fuel hf
    have hscan : scan (String.toList ",,.")
        = some [Token.Comma, Token.Comma, Token.Dot] := by decide
    have hcomp : Compiler.compile_bytecode ⟨[]⟩ [Token.Comma, Token.Comma, Token.Dot]
        = some (⟨[]⟩,
            [Bytecode.InputValue, Bytecode.InputValue, Bytecode.OutputValue]) := by
      decide
    have hstop : step [Bytecode.InputValue, Bytecode.InputValue, Bytecode.OutputValue]
        (runFuel 3 [Bytecode.InputValue, Bytecode.InputValue, Bytecode.OutputValue]
          (initState (String.toList "A"))) = none := by decide
    simp only [interpret, hscan, hcomp]
    rw [runFuel_of_le _ _ hf hstop]
    decide

/-- Closed witness for C6: a failed read on a concrete state leaves the cell
untouched, and the `,,.` example at fuel 3. -/
theorem input_failure_nonfatal_witness :
    step [Bytecode.InputValue] (⟨[5], 0, 0, [], []⟩ : VMState)
      = some { (⟨[5], 0, 0, [], []⟩ : VMState) with code_pointer := 0 + 1 } ∧
    interpret (String.toList ",,.") (String.toList "A") 3
      = some (String.toList "A") :=
  ⟨input_failure_nonfatal.1 [Bytecode.InputValue] ⟨[5], 0, 0, [], []⟩ rfl rfl,
   input_failure_nonfatal.2 3 (by decide)⟩

/-- C10: when the input capability succeeds with a character `c`, the
`InputValue` arm stores `c as u8`, i.e. the scalar value modulo 256, into the
current cell; for characters with scalar value at most 255 the stored byte is
the scalar value exactly. -/
theorem input_cast_mod256 (prog : List Bytecode) (s : VMState) (c : Char)
    (rest : List Char) (hin : s.input = c :: rest)
    (hget : prog[s.code_pointer]? = some Bytecode.InputValue)
    (hmp : s.mem_pointer < s.memory.length) :
    ∃ s', step prog s = some s' ∧ readCell s' = c.toNat % 256 ∧
      (c.toNat ≤ 255 → readCell s' = c.toNat) := by
  have happ : applyInstr Bytecode.InputValue s
      = { s with memory := s.memory.set s.mem_pointer (c.toNat % 256),
                 input := rest } := by
    simp only [applyInstr, hin]
  have hread : readCell { applyInstr Bytecode.InputValue s with
      code_pointer := (applyInstr Bytecode.InputValue s).code_pointer + 1 }
      = c.toNat % 256 := by
    rw [happ]
    show (s.memory.set s.mem_pointer (c.toNat % 256)).getD s.mem_pointer 0 = _
    exact getD_set_self s.memory s.mem_pointer _ hmp
  refine ⟨_, step_eq_some hget, hread, fun hle => ?_⟩
  rw [hread, Nat.mod_eq_of_lt (by omega)]

/-- Closed witness for C10 at the character U+0100 (scalar value 256), whose
stored byte is its low 8 bits, i.e. 0. -/
theorem input_cast_mod256_witness :
    ∃ s', step [Bytecode.InputValue] (⟨[0], 0, 0, [ 'Ā' ], []⟩ : VMState) = some s' ∧
      readCell s' = Char.toNat 'Ā' % 256 ∧
      (Char.toNat 'Ā' ≤ 255 → readCell s' = Char.toNat 'Ā') :=
  input_cast_mod256 [Bytecode.InputValue] ⟨[0], 0, 0, [ 'Ā' ], []⟩ 'Ā' [] rfl rfl
    (by decide)

theorem tokenOfChar_of_instr {c : Char} (h : isInstructionChar c = true) :
    tokenOfChar c = some (tokenOfCharTotal c) := by
  unfold isInstructionChar at h
  simp only [Bool.or_eq_true, decide_eq_true_eq] at h
  rcases h with ((((((h | h) | h) | h) | h) | h) | h) | h <;> subst h <;> rfl

theorem mapM_tokenOfChar : ∀ (l : List Char),
    (∀ c ∈ l, isInstructionChar c = true) →
    l.mapM tokenOfChar = some (l.map tokenOfCharTotal) := by
  intro l
  induction l with
  | nil => intro _; rfl
  | cons c l ih =>
      intro h
      have hc := tokenOfChar_of_instr (h c (List.mem_cons_self c l))
      have hl := ih (fun x hx => h x (List.mem_cons_of_mem c hx))
      rw [List.mapM_cons, hc, hl]
      rfl

/-- C7: for every input, `scan` never fails and yields exactly one token per
instruction character, in original source order, with every non-instruction
character silently dropped: its result is the total token map over the
filtered instruction characters. -/
theorem scan_total_filter_map (s : List Char) :
    scan s = some ((s.filter isInstructionChar).map tokenOfCharTotal) := by
  unfold scan
  exact mapM_tokenOfChar _ (fun c hc => (List.mem_filter.mp hc).2)

theorem countOk_filter : ∀ (input : List Token) (d : Nat),
    countOk d (input.filter (fun t => t ≠ Token.Space)) = countOk d input := by
  intro input
  induction input with
  | nil => intro d; rfl
  | cons t ts ih =>
      intro d
      have ih2 : ∀ d2, countOk d2 (List.filter (fun t => !decide (t = Token.Space)) ts)
          = countOk d2 ts := by
        intro d2
        have h2 := ih d2
        simpa [ne_eq, decide_not] using h2
      cases t with
      | RightSquareBracket =>
          cases d with
          | zero => simp [List.filter_cons, countOk]
          | succ d => simp [List.filter_cons, countOk, ih2]
      | _ => simp [List.filter_cons, countOk, ih2]

theorem paired_append_plain {stack : List Nat} {output : List Bytecode}
    (b : Bytecode) (hb : ∀ j, b ≠ Bytecode.LoopStart j) (hP : Paired stack output) :
    Paired stack (output ++ [b]) := by
  intro q j hq hget
  rcases Nat.lt_trichotomy q output.length with hlt | heq | hgt
  · rw [List.getElem?_append_left hlt] at hget
    exact getElem_append_some b (hP q j hq hget)
  · rw [heq, List.getElem?_concat_length] at hget
    exact absurd (Option.some.inj hget) (hb j)
  · have hnone : (output ++ [b])[q]? = none := by
      apply List.getElem?_eq_none
      simp only [List.length_append, List.length_cons, List.length_nil]
      omega
    rw [hnone] at hget
    cases hget

theorem compileAux_balanced :
    ∀ (ts : List Token) (stack : List Nat) (output : List Bytecode),
      Token.Space ∉ ts →
      countOk stack.length ts = true →
      List.Pairwise (fun a b => a > b) stack →
      (∀ p ∈ stack, output[p]? = some (Bytecode.LoopStart 0)) →
      Paired stack output →
      ∃ out, compileAux stack output output.length ts = some ([], out) ∧
        Paired [] out := by
  intro ts
  induction ts with
  | nil =>
      intro stack output hsp hcnt hpw hstk hP
      have hlen : stack.length = 0 := by
        have h0 : (stack.length == 0) = true := hcnt
        simpa using h0
      have hnil : stack = [] := List.length_eq_zero.mp hlen
      subst hnil
      exact ⟨output, rfl, hP⟩
  | cons t ts ih =>
      intro stack output hsp hcnt hpw hstk hP
      have hsp' : Token.Space ∉ ts := fun hx => hsp (List.mem_cons_of_mem t hx)
      have htne : t ≠ Token.Space := fun he => hsp (he ▸ List.mem_cons_self t ts)
      have hplain : ∀ b : Bytecode, (∀ j, b ≠ Bytecode.LoopStart j) →
          countOk stack.length ts = true →
          compileAux stack (output ++ [b]) (output.length + 1) ts
            = compileAux stack (output ++ [b]) (output ++ [b]).length ts →
          ∃ out, compileAux stack (output ++ [b]) (output.length + 1) ts
              = some ([], out) ∧ Paired [] out := by
        intro b hb hcnt' hlen2
        rw [hlen2]
        exact ih stack (output ++ [b]) hsp' hcnt' hpw
          (fun p hp => getElem_append_some b (hstk p hp))
          (paired_append_plain b hb hP)
      cases t with
      | Space => exact absurd rfl htne
      | GreaterThan =>
          exact hplain Bytecode.IncrementPointer (by intro j h; cases h) hcnt
            (by simp)
      | LessThan =>
          exact hplain Bytecode.DecrementPointer (by intro j h; cases h) hcnt
            (by simp)
      | Plus =>
          exact hplain Bytecode.IncrementValue (by intro j h; cases h) hcnt
            (by simp)
      | Minus =>
          exact hplain Bytecode.DecrementValue (by intro j h; cases h) hcnt
            (by simp)
      | Dot =>
          exact hplain Bytecode.OutputValue (by intro j h; cases h) hcnt (by simp)
      | Comma =>
          exact hplain Bytecode.InputValue (by intro j h; cases h) hcnt (by simp)
      | LeftSquareBracket =>
          show ∃ out, compileAux (output.length :: stack)
              (output ++ [Bytecode.LoopStart 0]) (output.length + 1) ts
              = some ([], out) ∧ Paired [] out
          rw [show output.length + 1 = (output ++ [Bytecode.LoopStart 0]).length by
            simp]
          apply ih (output.length :: stack) (output ++ [Bytecode.LoopStart 0]) hsp'
          · exact hcnt
          · refine List.pairwise_cons.mpr ⟨fun p hp => ?_, hpw⟩
            exact (List.getElem?_eq_some_iff.mp (hstk p hp)).1
          · intro p hp
            rcases List.mem_cons.mp hp with he | hmem
            · rw [he]
              exact List.getElem?_concat_length output (Bytecode.LoopStart 0)
            · exact getElem_append_some _ (hstk p hmem)
          · intro q j hq hget
            have hq2 : q ≠ output.length ∧ q ∉ stack := by
              constructor
              · exact fun he => hq (he ▸ List.mem_cons_self _ _)
              · exact fun hm => hq (List.mem_cons_of_mem _ hm)
            rcases Nat.lt_trichotomy q output.length with hlt | heq | hgt
            · rw [List.getElem?_append_left hlt] at hget
              exact getElem_append_some _ (hP q j hq2.2 hget)
            · exact absurd heq hq2.1
            · have hnone : (output ++ [Bytecode.LoopStart 0])[q]? = none := by
                apply List.getElem?_eq_none
                simp only [List.length_append, List.length_cons, List.length_nil]
                omega
              rw [hnone] at hget
              cases hget
      | RightSquareBracket =>
          cases stack with
          | nil => exact Bool.noConfusion hcnt
          | cons p rest =>
              have hps : output[p]? = some (Bytecode.LoopStart 0) :=
                hstk p (List.mem_cons_self p rest)
              have hplt : p < output.length := (List.getElem?_eq_some_iff.mp hps).1
              have hlset : (output.set p (Bytecode.LoopStart output.length)).length
                  = output.length := List.length_set output p _
              have hred : compileAux (p :: rest) output output.length
                  (Token.RightSquareBracket :: ts)
                  = compileAux rest ((output.set p (Bytecode.LoopStart output.length))
                      ++ [Bytecode.LoopEnd p]) (output.length + 1) ts := by
                simp only [compileAux, if_pos hplt]
              rw [hred, show output.length + 1
                  = ((output.set p (Bytecode.LoopStart output.length))
                      ++ [Bytecode.LoopEnd p]).length by
                simp [List.length_set]]
              apply ih rest
                ((output.set p (Bytecode.LoopStart output.length))
                  ++ [Bytecode.LoopEnd p]) hsp'
              · exact hcnt
              · exact List.Pairwise.of_cons hpw
              · intro p' hp'
                have hne : p ≠ p' :=
                  Nat.ne_of_gt (List.rel_of_pairwise_cons hpw hp')
                have hmem := hstk p' (List.mem_cons_of_mem p hp')
                have h1 : (output.set p (Bytecode.LoopStart output.length))[p']?
                    = some (Bytecode.LoopStart 0) := by
                  rw [List.getElem?_set_ne hne]
                  exact hmem
                exact getElem_append_some _ h1
              · intro q j hq hget
                rcases Nat.lt_trichotomy q output.length with hqlt | hqeq | hqgt
                · rw [List.getElem?_append_left (by rw [hlset]; exact hqlt)] at hget
                  by_cases hqp : q = p
                  · subst hqp
                    rw [List.getElem?_set_self hplt] at hget
                    have h2 := Option.some.inj hget
                    injection h2 with hj
                    have h3 := List.getElem?_concat_length
                      (output.set q (Bytecode.LoopStart output.length))
                      (Bytecode.LoopEnd q)
                    rw [hlset] at h3
                    rw [← hj]
                    exact h3
                  · rw [List.getElem?_set_ne (Ne.symm hqp)] at hget
                    have hqs : q ∉ p :: rest := fun hmem =>
                      (List.mem_cons.mp hmem).elim hqp hq
                    have hj := hP q j hqs hget
                    have hjp : j ≠ p := by
                      intro he
                      rw [he, hps] at hj
                      cases Option.some.inj hj
                    have h3 : (output.set p (Bytecode.LoopStart output.length))[j]?
                        = some (Bytecode.LoopEnd q) := by
                      rw [List.getElem?_set_ne (Ne.symm hjp)]
                      exact hj
                    exact getElem_append_some _ h3
                · have h4 := List.getElem?_concat_length
                    (output.set p (Bytecode.LoopStart output.length))
                    (Bytecode.LoopEnd p)
                  rw [hlset] at h4
                  rw [hqeq, h4] at hget
                  cases Option.some.inj hget
                · have hnone : ((output.set p (Bytecode.LoopStart output.length))
                      ++ [Bytecode.LoopEnd p])[q]? = none := by
                    apply List.getElem?_eq_none
                    simp only [List.length_append, List.length_set,
                      List.length_cons, List.length_nil]
                    omega
                  rw [hnone] at hget
                  cases hget

/-- C1: for every well-bracketed token sequence, `compile_bytecode` on a
fresh compiler never fails (and leaves the loop stack empty), and the
returned bytecode satisfies the jump-pairing invariant: every `LoopStart` at
index i with `jump_to = j` has a `LoopEnd` with `jump_to = i` at index j. -/
theorem compile_wellBracketed_pairs (input : List Token)
    (h : wellBracketed input = true) :
    ∃ out, Compiler.compile_bytecode ⟨[]⟩ input = some (⟨[]⟩, out) ∧
      ∀ i j, out[i]? = some (Bytecode.LoopStart j) →
        out[j]? = some (Bytecode.LoopEnd i) := by
  have hsp : Token.Space ∉ input.filter (fun t => t ≠ Token.Space) := by
    intro hx
    have h2 := (List.mem_filter.mp hx).2
    simp at h2
  have hcnt : countOk 0 (input.filter (fun t => t ≠ Token.Space)) = true := by
    rw [countOk_filter]
    exact h
  obtain ⟨out, hrun, hpair⟩ := compileAux_balanced
    (input.filter (fun t => t ≠ Token.Space)) [] [] hsp hcnt List.Pairwise.nil
    (fun p hp => absurd hp (List.not_mem_nil p))
    (fun q j hq hget => by rw [List.getElem?_nil] at hget; cases hget)
  simp only [List.length_nil] at hrun
  refine ⟨out, ?_, fun i j hget => hpair i j (List.not_mem_nil i) hget⟩
  unfold Compiler.compile_bytecode
  rw [hrun]

/-- Closed witness for C1 at the well-bracketed sequence `[]`. -/
theorem compile_wellBracketed_pairs_witness :
    ∃ out, Compiler.compile_bytecode ⟨[]⟩
        [Token.LeftSquareBracket, Token.RightSquareBracket] = some (⟨[]⟩, out) ∧
      ∀ i j, out[i]? = some (Bytecode.LoopStart j) →
        out[j]? = some (Bytecode.LoopEnd i) :=
  compile_wellBracketed_pairs
    [Token.LeftSquareBracket, Token.RightSquareBracket] (by decide)

end Brainfuck
